import Mathlib

/-!
Verification of the `Crypto` class in `IoT_crypto/main.cpp`.

The C++ code is a thin wrapper over OpenSSL: a hex codec
(`bytesToHex`/`hexToBytes`), P-256 ECDSA (`sign`/`verify`), ECDH
(`derivePublicKey`/`getSharedKey`) and AES-128-CCM (`encrypt`/`decrypt`).

Modelling conventions used throughout this file:
- C++ `std::string` values that carry raw bytes (messages, keys, plaintexts,
  the byte payload handed to `bytesToHex`) are modelled as `List ℕ` with every
  element `< 256`; hex strings are modelled as `List Char` (the character data
  of the `std::string`).
- a C++ function that can throw is modelled as returning `Except String α`,
  where the `String` is the exception message (`what()` of the thrown
  exception; `std::stoi` throws `std::invalid_argument("stoi")`).
- the elliptic-curve group: P-256 has prime order and cofactor 1, so the whole
  group is cyclic, generated by the base point G.  Points are therefore
  represented by their discrete logarithm in `ZMod n` (`n` the group order, a
  variable prime here), with `0` the point at infinity.  The x-coordinate map,
  point/DER (de)serialisation and SHA-256 are abstract parameters (bundled in
  structures below) constrained only by properties OpenSSL guarantees
  (serialise/deserialise round-trips, output byte ranges).
- AES-128-CCM: CCM encrypts by XORing the plaintext with a CTR keystream and
  appends a 16-byte tag that is a deterministic function of (key, nonce,
  plaintext); decryption recomputes the keystream and the tag.  The keystream
  and tag functions are abstract parameters.
- randomness (the ECDSA nonce `k`, the 12-byte CCM nonce) is passed as an
  explicit input, as the claims direct.
-/

namespace CryptoModel

/-- Decidable equality for `Except`, used to evaluate concrete runs. -/
instance instDecEqExcept {ε α : Type} [DecidableEq ε] [DecidableEq α] :
    DecidableEq (Except ε α) := fun x y =>
  match x, y with
  | .ok a, .ok b =>
    if h : a = b then .isTrue (by rw [h]) else .isFalse (by intro hc; cases hc; exact h rfl)
  | .error a, .error b =>
    if h : a = b then .isTrue (by rw [h]) else .isFalse (by intro hc; cases hc; exact h rfl)
  | .ok _, .error _ => .isFalse (by intro hc; cases hc)
  | .error _, .ok _ => .isFalse (by intro hc; cases hc)

/-- Value of a hex digit accepted by `std::stoi(·, nullptr, 16)`:
digits `0`-`9`, `A`-`F`, `a`-`f`. -/
def hexVal (c : Char) : Option ℕ :=
  if 48 ≤ c.toNat ∧ c.toNat ≤ 57 then some (c.toNat - 48)
  else if 65 ≤ c.toNat ∧ c.toNat ≤ 70 then some (c.toNat - 55)
  else if 97 ≤ c.toNat ∧ c.toNat ≤ 102 then some (c.toNat - 87)
  else none

/-- Whitespace skipped by `strtol` (hence by `std::stoi`):
space, `\t`, `\n`, vertical tab, form feed, `\r`. -/
def isStoiSpace (c : Char) : Bool :=
  c.toNat = 32 ∨ c.toNat = 9 ∨ c.toNat = 10 ∨ c.toNat = 11 ∨ c.toNat = 12 ∨ c.toNat = 13

/-- Model of `static_cast<unsigned char>(std::stoi(s, nullptr, 16))` for a
2-character group `s = ⟨[c1, c2]⟩` as produced by the loop in `hexToBytes`
(`hex.substr(i, 2)`).  `stoi` skips leading whitespace, accepts an optional
sign, then parses hex digits greedily (a leading `0x` marker with no
following digit backtracks to the single digit `0`, which coincides with the
first branch below); it throws `std::invalid_argument("stoi")` iff no digit
is converted.  The final cast reduces the parsed `int` modulo 256. -/
def stoiBytePair (c1 c2 : Char) : Except String ℕ :=
  match hexVal c1 with
  | some v1 =>
    match hexVal c2 with
    | some v2 => .ok (16 * v1 + v2)
    | none => .ok v1
  | none =>
    if c1 = '-' then
      match hexVal c2 with
      | some v2 => .ok ((256 - v2) % 256)
      | none => .error "stoi"
    else if c1 = '+' ∨ isStoiSpace c1 then
      match hexVal c2 with
      | some v2 => .ok v2
      | none => .error "stoi"
    else .error "stoi"

/-- Model of `static_cast<unsigned char>(std::stoi(s, nullptr, 16))` for the
trailing 1-character group that `hex.substr(i, 2)` yields on an odd-length
input: a lone hex digit parses to its value, anything else converts no digit
and throws. -/
def stoiByteOne (c : Char) : Except String ℕ :=
  match hexVal c with
  | some v => .ok v
  | none => .error "stoi"

/-- Model of `Crypto::hexToBytes`: walk the string two characters at a time
(`substr(i, 2)`), converting each group with `stoi(·, nullptr, 16)` cast to
`unsigned char`.  Note the C++ code performs no validation of its own: an
odd-length string simply ends in a 1-character group, and `stoi` exceptions
propagate to the caller. -/
def hexToBytes : List Char → Except String (List ℕ)
  | [] => .ok []
  | [c] => (stoiByteOne c).map ([·])
  | c1 :: c2 :: rest => do
    let b ← stoiBytePair c1 c2
    let bs ← hexToBytes rest
    .ok (b :: bs)

/-- Hex digit emitted by `std::hex` formatting (lowercase). -/
def digitChar (d : ℕ) : Char :=
  Char.ofNat (if d < 10 then 48 + d else 87 + d)

/-- Model of `Crypto::bytesToHex`: `<< std::setw(2) << std::setfill('0')
<< std::hex` prints each byte value `b < 256` as exactly two lowercase hex
characters, high nibble first. -/
def bytesToHex : List ℕ → List Char
  | [] => []
  | b :: bs => digitChar (b / 16) :: digitChar (b % 16) :: bytesToHex bs

/-- Lowercase hexadecimal digit: `0`-`9` or `a`-`f`. -/
def isLowerHexChar (c : Char) : Bool :=
  (48 ≤ c.toNat ∧ c.toNat ≤ 57) ∨ (97 ≤ c.toNat ∧ c.toNat ≤ 102)

/-- A 2-character group on which `std::stoi(·, nullptr, 16)` converts no
digit (and therefore throws): its first character is not a hex digit, and
when that first character is a sign or `stoi`-skippable whitespace the
second character is not a hex digit either.  A group whose first character
is a hex digit always converts, whatever its second character is. -/
def pairConvertsNoDigit (c1 c2 : Char) : Bool :=
  (hexVal c1).isNone &&
    (if c1 = '-' ∨ c1 = '+' ∨ isStoiSpace c1 = true then (hexVal c2).isNone
     else true)

/-- Whether `hexToBytes` rejects a string: some 2-character group, or the
trailing single character of an odd-length string, converts no digit. -/
def hexRejects : List Char → Bool
  | [] => false
  | [c] => (hexVal c).isNone
  | c1 :: c2 :: rest => pairConvertsNoDigit c1 c2 || hexRejects rest

/-- Abstract interface to the OpenSSL P-256 primitives the `Crypto` class
calls.  P-256 has prime group order `n` and cofactor 1, so the point group is
cyclic: a point is represented by its discrete logarithm in `ZMod n` (the
scalar `d` standing for `d·G`), with `0` the point at infinity.  The fields
are the operations whose internals the C++ code never inspects, constrained
only by properties OpenSSL documents:
- `xcoordN d`: the affine x-coordinate of `d·G` reduced modulo the group
  order (as used inside ECDSA);
- `xbytes d`: `BN_bn2binpad(x-coordinate, 32)`, the 32-byte big-endian
  x-coordinate of `d·G` (as used by `getSharedKey`);
- `msgHash m`: the SHA-256 digest of the message bytes, read as a scalar the
  way `ECDSA_do_sign`/`ECDSA_do_verify` both do;
- `pointSer`/`pointDeser`: `EC_POINT_point2oct` (uncompressed form) and
  `EC_POINT_oct2point`, which are mutually inverse and produce bytes;
- `derSer`/`derDeser`: `i2d_ECDSA_SIG` and `d2i_ECDSA_SIG`; serialising the
  pair `(r, s)` of scalars (held as `BIGNUM`s in `[0, n)`, i.e. as `val`s)
  and parsing it back recovers the two integers. -/
structure ECPrim (n : ℕ) where
  xcoordN : ZMod n → ZMod n
  xbytes : ZMod n → List ℕ
  msgHash : List ℕ → ZMod n
  pointSer : ZMod n → List ℕ
  pointDeser : List ℕ → Option (ZMod n)
  derSer : ZMod n × ZMod n → List ℕ
  derDeser : List ℕ → Option (ℤ × ℤ)
  xbytes_lt : ∀ d, ∀ b ∈ xbytes d, b < 256
  pointSer_lt : ∀ d, ∀ b ∈ pointSer d, b < 256
  pointSer_deser : ∀ d, pointDeser (pointSer d) = some d
  derSer_lt : ∀ p, ∀ b ∈ derSer p, b < 256
  derSer_deser : ∀ p, derDeser (derSer p) = some ((p.1.val : ℤ), (p.2.val : ℤ))

/-- Model of `BN_bin2bn`: a byte buffer read as a big-endian natural. -/
def bytesToNatBE (bs : List ℕ) : ℕ :=
  bs.foldl (fun a b => 256 * a + b) 0

/-- The private scalar the C++ code builds from decoded key bytes
(`BN_bin2bn` followed by use modulo the group order). -/
def scalarOfBytes (n : ℕ) (bs : List ℕ) : ZMod n :=
  (bytesToNatBE bs : ZMod n)

variable {n : ℕ}

/-- Model of `Crypto::derivePublicKey`: decode the private-key hex (exceptions
from `stoi` propagate), multiply the base point by the scalar
(`EC_POINT_mul`), serialise the point uncompressed (`EC_POINT_point2oct`) and
hex-encode it. -/
def derivePublicKey (P : ECPrim n) (privateKeyHex : List Char) :
    Except String (List Char) :=
  (hexToBytes privateKeyHex).map fun bs =>
    bytesToHex (P.pointSer (scalarOfBytes n bs))

/-- Model of `Crypto::sign`: decode the private-key hex, hash the message,
and produce the ECDSA pair `r = x(k·G) mod n`, `s = k⁻¹(z + r·d) mod n` for
the per-signature nonce `k` that `ECDSA_do_sign` draws internally (passed
here as an explicit input, per the claims), DER-encode it and hex-encode
the result. -/
def sign [Fact (Nat.Prime n)] (P : ECPrim n) (message : List ℕ)
    (privateKeyHex : List Char) (k : ZMod n) : Except String (List Char) :=
  (hexToBytes privateKeyHex).map fun bs =>
    let d := scalarOfBytes n bs
    let z := P.msgHash message
    let r := P.xcoordN k
    let s := k⁻¹ * (z + r * d)
    bytesToHex (P.derSer (r, s))

/-- Model of `Crypto::verify`.  Following the C++ control flow: decode the
public-key hex first, then the signature hex (either `stoi` exception
propagates); a public key that `EC_POINT_oct2point` rejects is left as the
freshly created point, i.e. the point at infinity (the call's result is
ignored); `d2i_ECDSA_SIG` failure makes `ECDSA_do_verify` return `-1`, so the
function returns `false`; otherwise `ECDSA_do_verify` checks
`r, s ∈ [1, n-1]`, computes `R = (z·s⁻¹)·G + (r·s⁻¹)·Q`, fails if `R` is the
point at infinity, and compares `x(R) mod n` with `r`. -/
def verify [Fact (Nat.Prime n)] (P : ECPrim n) (signatureHex : List Char)
    (message : List ℕ) (publicKeyHex : List Char) : Except String Bool :=
  hexToBytes publicKeyHex >>= fun pubBytes =>
    let q : ZMod n := (P.pointDeser pubBytes).getD 0
    let z := P.msgHash message
    hexToBytes signatureHex >>= fun sigBytes =>
      match P.derDeser sigBytes with
      | none => .ok false
      | some (rI, sI) =>
        if 0 < rI ∧ rI < (n : ℤ) ∧ 0 < sI ∧ sI < (n : ℤ) then
          let r : ZMod n := (rI : ZMod n)
          let s : ZMod n := (sI : ZMod n)
          let u := s⁻¹
          let cap := z * u + r * u * q
          .ok (decide (cap ≠ 0 ∧ P.xcoordN cap = r))
        else .ok false

/-- Model of `Crypto::getSharedKey`: decode the private scalar and the peer
public point (a point `EC_POINT_oct2point` rejects throws
`"Failed to create public key point"`), compute `d·Q` (`EC_POINT_mul`), and
return the hex of the 32-byte x-coordinate; if `d·Q` is the point at
infinity, `EC_POINT_get_affine_coordinates` fails and the code throws
`"Failed to get shared secret"`. -/
def getSharedKey (P : ECPrim n) (secretKeyHex publicKeyHex : List Char) :
    Except String (List Char) :=
  hexToBytes secretKeyHex >>= fun sb =>
    let d := scalarOfBytes n sb
    hexToBytes publicKeyHex >>= fun pb =>
      match P.pointDeser pb with
      | none => .error "Failed to create public key point"
      | some q =>
        let sp := d * q
        if sp = 0 then .error "Failed to get shared secret"
        else .ok (bytesToHex (P.xbytes sp))

/-- Abstract interface to the symmetric primitives behind
`Crypto::encrypt`/`Crypto::decrypt`:
- `sha256`: the SHA-256 digest used as key material (`EVP_sha256` over the
  caller's key string);
- `ks kh nonce i`: byte `i` of the CCM counter-mode keystream for key `kh`
  and the 12-byte nonce (AES-CCM encrypts payload bytes by XORing them with
  this keystream);
- `tagF kh nonce pt`: the 16-byte CCM authentication tag, a deterministic
  function of key, nonce and plaintext, which decryption recomputes from the
  recovered plaintext and compares against the received tag. -/
structure CCMPrim where
  sha256 : List ℕ → List ℕ
  ks : List ℕ → List ℕ → ℕ → ℕ
  tagF : List ℕ → List ℕ → List ℕ → List ℕ
  ks_lt : ∀ kh nonce i, ks kh nonce i < 256
  tagF_len : ∀ kh nonce pt, (tagF kh nonce pt).length = 16
  tagF_lt : ∀ kh nonce pt, ∀ b ∈ tagF kh nonce pt, b < 256

/-- XOR a payload with the CCM keystream for the given key hash and nonce. -/
def ccmXor (C : CCMPrim) (kh nonce payload : List ℕ) : List ℕ :=
  List.zipWith (fun a b => a ^^^ b) payload
    ((List.range payload.length).map (C.ks kh nonce))

/-- Model of `Crypto::encrypt`: hash the key string with SHA-256, CCM-encrypt
the message under the 12-byte nonce (drawn by `RAND_bytes` in the C++ code,
passed as an explicit input here per the claims), and return the hex encoding
of `nonce ‖ ciphertext ‖ tag` (ciphertext length equals message length). -/
def encrypt (C : CCMPrim) (key msg nonce : List ℕ) : List Char :=
  let kh := C.sha256 key
  bytesToHex (nonce ++ ccmXor C kh nonce msg ++ C.tagF kh nonce msg)

/-- Model of `Crypto::decrypt`: decode the hex envelope (`stoi` exceptions
propagate), throw `"Invalid encrypted data length"` if fewer than 28 bytes,
split into 12-byte nonce, ciphertext of length `size - 28` and the trailing
16-byte tag, hash the key, CCM-decrypt, and release the plaintext only when
the recomputed tag matches (otherwise `EVP_DecryptUpdate` fails and the code
throws `"Failed to decrypt message or tag verification failed"`). -/
def decrypt (C : CCMPrim) (key : List ℕ) (encryptedHex : List Char) :
    Except String (List ℕ) :=
  hexToBytes encryptedHex >>= fun enc =>
    if enc.length < 28 then .error "Invalid encrypted data length"
    else
      let kh := C.sha256 key
      let nonce := enc.take 12
      let ct := (enc.drop 12).take (enc.length - 28)
      let tag := enc.drop (enc.length - 16)
      let pt := ccmXor C kh nonce ct
      if C.tagF kh nonce pt = tag then .ok pt
      else .error "Failed to decrypt message or tag verification failed"


/-- The group order is treated as a variable prime; the toy instantiations
below use the prime 3 to evaluate the model on concrete inputs. -/
instance : Fact (Nat.Prime 3) := ⟨by norm_num⟩

/-- A concrete instantiation of `ECPrim` over the prime 3, used to evaluate
the elliptic-curve pipeline on concrete inputs: points serialise to their
single-byte discrete logarithm and the x-coordinate map is the identity. -/
def toyEC : ECPrim 3 where
  xcoordN := id
  xbytes := fun d => [d.val]
  msgHash := fun _ => 1
  pointSer := fun d => [d.val]
  pointDeser := fun bs =>
    match bs with
    | [x] => some (x : ZMod 3)
    | _ => none
  derSer := fun p => [p.1.val, p.2.val]
  derDeser := fun bs =>
    match bs with
    | [x, y] => some ((x : ℤ), (y : ℤ))
    | _ => none
  xbytes_lt := by decide
  pointSer_lt := by decide
  pointSer_deser := by decide
  derSer_lt := by decide
  derSer_deser := by decide

/-- A concrete instantiation of `CCMPrim` (zero keystream, zero tag), used to
evaluate the AEAD pipeline on concrete inputs. -/
def toyCCM : CCMPrim where
  sha256 := fun _ => List.replicate 32 0
  ks := fun _ _ _ => 0
  tagF := fun _ _ _ => List.replicate 16 0
  ks_lt := fun _ _ _ => by norm_num
  tagF_len := fun _ _ _ => rfl
  tagF_lt := fun _ _ _ b hb => by
    rw [List.eq_of_mem_replicate hb]
    norm_num


@[simp] lemma except_bind_ok {ε α β : Type} (a : α) (f : α → Except ε β) :
    (Except.ok a >>= f) = f a := rfl

@[simp] lemma except_bind_error {ε α β : Type} (e : ε) (f : α → Except ε β) :
    ((Except.error e : Except ε α) >>= f) = Except.error e := rfl

@[simp] lemma except_map_ok {ε α β : Type} (f : α → β) (a : α) :
    Except.map f (Except.ok a : Except ε α) = .ok (f a) := rfl

@[simp] lemma except_map_error {ε α β : Type} (f : α → β) (e : ε) :
    Except.map f (Except.error e : Except ε α) = .error e := rfl


lemma hexVal_digitChar {d : ℕ} (hd : d < 16) : hexVal (digitChar d) = some d := by
  interval_cases d <;> decide

lemma isLowerHexChar_digitChar {d : ℕ} (hd : d < 16) :
    isLowerHexChar (digitChar d) = true := by
  interval_cases d <;> decide

lemma stoiBytePair_digits {b : ℕ} (hb : b < 256) :
    stoiBytePair (digitChar (b / 16)) (digitChar (b % 16)) = .ok b := by
  have h1 : b / 16 < 16 := by omega
  have h2 : b % 16 < 16 := by omega
  simp only [stoiBytePair, hexVal_digitChar h1, hexVal_digitChar h2]
  congr 1
  omega

/-- Decoding inverts encoding on byte lists (all values `< 256`). -/
lemma hexToBytes_bytesToHex {bs : List ℕ} (h : ∀ b ∈ bs, b < 256) :
    hexToBytes (bytesToHex bs) = .ok bs := by
  induction bs with
  | nil => rfl
  | cons b bs ih =>
    have hb : b < 256 := h b (List.mem_cons_self b bs)
    have hbs : ∀ x ∈ bs, x < 256 := fun x hx => h x (List.mem_cons_of_mem _ hx)
    simp only [bytesToHex, hexToBytes, stoiBytePair_digits hb, ih hbs]
    rfl

lemma length_bytesToHex (bs : List ℕ) : (bytesToHex bs).length = 2 * bs.length := by
  induction bs with
  | nil => rfl
  | cons b bs ih =>
    simp [bytesToHex, ih]
    omega

lemma bytesToHex_lowerHex {bs : List ℕ} (h : ∀ b ∈ bs, b < 256) :
    ∀ c ∈ bytesToHex bs, isLowerHexChar c = true := by
  induction bs with
  | nil => intro c hc; cases hc
  | cons b bs ih =>
    intro c hc
    have hb : b < 256 := h b (List.mem_cons_self b bs)
    have hbs : ∀ x ∈ bs, x < 256 := fun x hx => h x (List.mem_cons_of_mem _ hx)
    simp only [bytesToHex, List.mem_cons] at hc
    rcases hc with rfl | hc
    · exact isLowerHexChar_digitChar (by omega)
    rcases hc with rfl | hc
    · exact isLowerHexChar_digitChar (by omega)
    · exact ih hbs c hc

lemma digitChar_hexVal {c : Char} (h : isLowerHexChar c = true) :
    ∃ d, d < 16 ∧ hexVal c = some d ∧ digitChar d = c := by
  have h' : (48 ≤ c.toNat ∧ c.toNat ≤ 57) ∨ (97 ≤ c.toNat ∧ c.toNat ≤ 102) := by
    simpa [isLowerHexChar] using h
  rcases h' with ⟨h1, h2⟩ | ⟨h1, h2⟩
  · refine ⟨c.toNat - 48, by omega, ?_, ?_⟩
    · simp [hexVal, h1, h2]
    · have h10 : c.toNat - 48 < 10 := by omega
      have : digitChar (c.toNat - 48) = Char.ofNat c.toNat := by
        simp only [digitChar, if_pos h10]
        congr 1
        omega
      rw [this, Char.ofNat_toNat]
  · refine ⟨c.toNat - 87, by omega, ?_, ?_⟩
    · have hn1 : ¬ (48 ≤ c.toNat ∧ c.toNat ≤ 57) := by omega
      have hn2 : ¬ (65 ≤ c.toNat ∧ c.toNat ≤ 70) := by omega
      simp [hexVal, hn1, hn2, h1, h2]
    · have h10 : ¬ (c.toNat - 87 < 10) := by omega
      have : digitChar (c.toNat - 87) = Char.ofNat c.toNat := by
        simp only [digitChar, if_neg h10]
        congr 1
        omega
      rw [this, Char.ofNat_toNat]

/-- Exhaustive behaviour of a 2-character group: it throws exactly when it
converts no digit, and otherwise produces a byte. -/
lemma stoiBytePair_cases (c1 c2 : Char) :
    (pairConvertsNoDigit c1 c2 = true ∧ stoiBytePair c1 c2 = .error "stoi") ∨
      (pairConvertsNoDigit c1 c2 = false ∧ ∃ b, stoiBytePair c1 c2 = .ok b) := by
  rcases h1 : hexVal c1 with _ | v1
  · rcases h2 : hexVal c2 with _ | v2
    · left
      refine ⟨by simp [pairConvertsNoDigit, h1, h2], ?_⟩
      unfold stoiBytePair
      rw [h1, h2]
      by_cases hm : c1 = '-'
      · simp [hm]
      · rw [if_neg hm]
        by_cases hp : c1 = '+' ∨ isStoiSpace c1 = true
        · simp [hp]
        · rw [if_neg (by simpa using hp)]
    · by_cases hs : c1 = '-' ∨ c1 = '+' ∨ isStoiSpace c1 = true
      · right
        refine ⟨by simp [pairConvertsNoDigit, h1, h2, hs], ?_⟩
        unfold stoiBytePair
        rw [h1, h2]
        rcases hs with hm | hp
        · exact ⟨(256 - v2) % 256, by simp [hm]⟩
        · refine ⟨v2, ?_⟩
          by_cases hm : c1 = '-'
          · subst hm
            exact absurd hp (by decide)
          · rw [if_neg hm, if_pos (by simpa using hp)]
      · left
        refine ⟨by simp [pairConvertsNoDigit, h1, hs], ?_⟩
        unfold stoiBytePair
        rw [h1]
        have hm : ¬ c1 = '-' := fun h => hs (Or.inl h)
        have hp : ¬ (c1 = '+' ∨ isStoiSpace c1 = true) := fun h => hs (Or.inr h)
        rw [if_neg hm, if_neg (by simpa using hp)]
  · right
    refine ⟨by simp [pairConvertsNoDigit, h1], ?_⟩
    unfold stoiBytePair
    rw [h1]
    rcases h2 : hexVal c2 with _ | v2
    · exact ⟨v1, rfl⟩
    · exact ⟨16 * v1 + v2, rfl⟩

/-- Exhaustive behaviour of `hexToBytes`: a string is rejected (with the
`stoi` exception) iff some group converts no digit, and is otherwise decoded
to a byte list. -/
lemma hexToBytes_cases : ∀ cs : List Char,
    (hexRejects cs = true ∧ hexToBytes cs = .error "stoi") ∨
      (hexRejects cs = false ∧ ∃ bs, hexToBytes cs = .ok bs) := by
  intro cs
  induction cs using hexToBytes.induct with
  | case1 => exact Or.inr ⟨rfl, [], rfl⟩
  | case2 c =>
    rcases h : hexVal c with _ | v
    · exact Or.inl ⟨by simp [hexRejects, h], by simp [hexToBytes, stoiByteOne, h]⟩
    · exact Or.inr ⟨by simp [hexRejects, h],
        ⟨[v], by simp [hexToBytes, stoiByteOne, h]⟩⟩
  | case3 c1 c2 rest ih =>
    rcases stoiBytePair_cases c1 c2 with ⟨hpf, hsf⟩ | ⟨hpo, b, hsb⟩
    · exact Or.inl ⟨by simp [hexRejects, hpf], by simp [hexToBytes, hsf]⟩
    · rcases ih with ⟨hrt, hef⟩ | ⟨hrf, bs, heo⟩
      · exact Or.inl ⟨by simp [hexRejects, hpo, hrt],
          by simp [hexToBytes, hsb, hef]⟩
      · exact Or.inr ⟨by simp [hexRejects, hpo, hrf],
          ⟨b :: bs, by simp [hexToBytes, hsb, heo]⟩⟩

lemma mem_zipWith {α β γ : Type} {f : α → β → γ} :
    ∀ {l1 : List α} {l2 : List β} {c : γ}, c ∈ List.zipWith f l1 l2 →
      ∃ a ∈ l1, ∃ b ∈ l2, c = f a b
  | a :: l1, b :: l2, c, hc => by
    rcases List.mem_cons.mp hc with rfl | hc
    · exact ⟨a, by simp, b, by simp, rfl⟩
    · obtain ⟨a', ha', b', hb', rfl⟩ := mem_zipWith hc
      exact ⟨a', by simp [ha'], b', by simp [hb'], rfl⟩

lemma length_ccmXor (C : CCMPrim) (kh nonce p : List ℕ) :
    (ccmXor C kh nonce p).length = p.length := by
  simp [ccmXor]

lemma ccmXor_lt (C : CCMPrim) (kh nonce : List ℕ) {p : List ℕ}
    (hp : ∀ b ∈ p, b < 256) : ∀ b ∈ ccmXor C kh nonce p, b < 256 := by
  intro b hb
  obtain ⟨a, ha, k, hk, rfl⟩ := mem_zipWith hb
  obtain ⟨i, _, rfl⟩ := List.mem_map.mp hk
  have h1 : a < 2 ^ 8 := hp a ha
  have h2 : C.ks kh nonce i < 2 ^ 8 := C.ks_lt kh nonce i
  exact Nat.xor_lt_two_pow h1 h2

lemma zipWith_xor_cancel :
    ∀ (xs ys : List ℕ), xs.length ≤ ys.length →
      List.zipWith (fun a b => a ^^^ b)
        (List.zipWith (fun a b => a ^^^ b) xs ys) ys = xs
  | [], _, _ => by simp
  | x :: xs, y :: ys, h => by
    simp only [List.zipWith, Nat.xor_cancel_right, List.cons.injEq, true_and]
    exact zipWith_xor_cancel xs ys (by simpa using h)
  | x :: xs, [], h => by simp at h

/-- XORing with the same keystream twice recovers the payload. -/
lemma ccmXor_ccmXor (C : CCMPrim) (kh nonce p : List ℕ) :
    ccmXor C kh nonce (ccmXor C kh nonce p) = p := by
  simp only [ccmXor, List.length_zipWith, List.length_map, List.length_range,
    Nat.min_self]
  exact zipWith_xor_cancel p ((List.range p.length).map (C.ks kh nonce)) (by simp)

/-- C7: for every byte sequence `b` (values `< 256`, as an `unsigned char`
buffer holds), decoding the hex encoding of `b` returns `b` unchanged:
`hexToBytes (bytesToHex b) = b`. -/
theorem claim_C7_decode_encode (bs : List ℕ) (h : ∀ b ∈ bs, b < 256) :
    hexToBytes (bytesToHex bs) = .ok bs :=
  hexToBytes_bytesToHex h

theorem claim_C7_witness :
    (∀ b ∈ [0, 171, 255], b < 256) ∧
      hexToBytes (bytesToHex [0, 171, 255]) = .ok [0, 171, 255] :=
  ⟨by decide, claim_C7_decode_encode [0, 171, 255] (by decide)⟩

/-- C8 counterexample: the string `"0z"` contains a character that is not a
hex digit, yet `hexToBytes` silently returns the byte `0x00` instead of
failing — `std::stoi("0z", nullptr, 16)` parses the leading `0` and ignores
the rest. -/
theorem claim_C8_counterexample : hexToBytes ['0', 'z'] = .ok [0] := by decide

/-- C8 (amended): `hexToBytes` fails — with the `std::invalid_argument`
thrown by `stoi` — exactly when some 2-character group, or the trailing
single character of an odd-length string, converts no digit (its first
character is not a hex digit, and when that first character is a sign or
`stoi`-skippable whitespace the second is not a hex digit either); on every
other input, including odd-length strings and groups whose non-hex second
character `stoi` silently ignores, it returns a byte list, contrary to the
original claim. -/
theorem claim_C8_amended (cs : List Char) :
    (hexToBytes cs = .error "stoi" ↔ hexRejects cs = true) ∧
      (hexRejects cs = false → ∃ bs, hexToBytes cs = .ok bs) := by
  rcases hexToBytes_cases cs with ⟨hr, he⟩ | ⟨hr, bs, he⟩
  · exact ⟨⟨fun _ => hr, fun _ => he⟩, fun hf => by rw [hf] at hr; cases hr⟩
  · refine ⟨⟨fun h => ?_, fun h => ?_⟩, fun _ => ⟨bs, he⟩⟩
    · rw [he] at h
      cases h
    · rw [h] at hr
      cases hr

theorem claim_C8_amended_witness :
    (hexRejects ['0', '0', 'z', 'z'] = true ∧
      hexToBytes ['0', '0', 'z', 'z'] = .error "stoi") ∧
      (hexRejects ['a', 'b', 'c'] = false ∧
        ∃ bs, hexToBytes ['a', 'b', 'c'] = .ok bs) :=
  ⟨⟨by decide, (claim_C8_amended ['0', '0', 'z', 'z']).1.mpr (by decide)⟩,
    ⟨by decide, (claim_C8_amended ['a', 'b', 'c']).2 (by decide)⟩⟩

/-- C10: for every even-length string of lowercase hex digits, re-encoding
its decoding reproduces it exactly: the decode succeeds and
`bytesToHex (hexToBytes s) = s`. -/
theorem claim_C10_encode_decode (cs : List Char) (heven : cs.length % 2 = 0)
    (hhex : ∀ c ∈ cs, isLowerHexChar c = true) :
    ∃ bs, hexToBytes cs = .ok bs ∧ bytesToHex bs = cs := by
  induction cs using hexToBytes.induct with
  | case1 => exact ⟨[], rfl, rfl⟩
  | case2 c => simp at heven
  | case3 c1 c2 rest ih =>
    obtain ⟨d1, hd1, hv1, hc1⟩ :=
      digitChar_hexVal (hhex c1 (by simp))
    obtain ⟨d2, hd2, hv2, hc2⟩ :=
      digitChar_hexVal (hhex c2 (by simp))
    obtain ⟨bs, hbs, henc⟩ := ih (by simp at heven; omega)
      (fun c hc => hhex c (by simp [hc]))
    refine ⟨(16 * d1 + d2) :: bs, ?_, ?_⟩
    · simp [hexToBytes, stoiBytePair, hv1, hv2, hbs]
    · have e1 : (16 * d1 + d2) / 16 = d1 := by omega
      have e2 : (16 * d1 + d2) % 16 = d2 := by omega
      simp [bytesToHex, e1, e2, hc1, hc2, henc]

theorem claim_C10_witness :
    ((['0', 'a', 'f', 'f'].length % 2 = 0) ∧
      (∀ c ∈ ['0', 'a', 'f', 'f'], isLowerHexChar c = true)) ∧
      ∃ bs, hexToBytes ['0', 'a', 'f', 'f'] = .ok bs ∧
        bytesToHex bs = ['0', 'a', 'f', 'f'] :=
  ⟨by decide, claim_C10_encode_decode ['0', 'a', 'f', 'f'] (by decide) (by decide)⟩

/-- C2: decrypting the envelope produced by `encrypt` under the same key
returns the original plaintext (the 12-byte nonce drawn inside `encrypt`
modeled as an input). -/
theorem claim_C2_decrypt_encrypt (C : CCMPrim) (key msg nonce : List ℕ)
    (hn : nonce.length = 12) (hn256 : ∀ b ∈ nonce, b < 256)
    (hm256 : ∀ b ∈ msg, b < 256) :
    decrypt C key (encrypt C key msg nonce) = .ok msg := by
  set kh := C.sha256 key with hkh
  set ct := ccmXor C kh nonce msg with hct
  set tag := C.tagF kh nonce msg with htag
  have hctlen : ct.length = msg.length := length_ccmXor C kh nonce msg
  have htaglen : tag.length = 16 := C.tagF_len kh nonce msg
  have henv256 : ∀ b ∈ nonce ++ ct ++ tag, b < 256 := by
    intro b hb
    rcases List.mem_append.mp hb with hb | hb
    · rcases List.mem_append.mp hb with hb | hb
      · exact hn256 b hb
      · exact ccmXor_lt C kh nonce hm256 b hb
    · exact C.tagF_lt kh nonce msg b hb
  have henvlen : (nonce ++ ct ++ tag).length = msg.length + 28 := by
    simp [hn, hctlen, htaglen]
    omega
  rw [encrypt, decrypt, ← hkh, ← hct, ← htag, hexToBytes_bytesToHex henv256,
    except_bind_ok]
  rw [if_neg (by omega)]
  have htake12 : (nonce ++ ct ++ tag).take 12 = nonce := by
    rw [List.append_assoc]
    exact List.take_left' hn
  have hdrop12 : (nonce ++ ct ++ tag).drop 12 = ct ++ tag := by
    rw [List.append_assoc]
    exact List.drop_left' hn
  have hctpart : ((nonce ++ ct ++ tag).drop 12).take ((nonce ++ ct ++ tag).length - 28) = ct := by
    rw [hdrop12, henvlen]
    have : msg.length + 28 - 28 = ct.length := by omega
    rw [this]
    exact List.take_left ct tag
  have htagpart : (nonce ++ ct ++ tag).drop ((nonce ++ ct ++ tag).length - 28 + 12) = tag := by
    rw [henvlen]
    have : msg.length + 28 - 28 + 12 = (nonce ++ ct).length := by
      simp [hn, hctlen]
      omega
    rw [this]
    exact List.drop_left (nonce ++ ct) tag
  have htagpart' : (nonce ++ ct ++ tag).drop ((nonce ++ ct ++ tag).length - 16) = tag := by
    have : (nonce ++ ct ++ tag).length - 16 = (nonce ++ ct).length := by
      rw [henvlen]
      simp [hn, hctlen]
      omega
    rw [this]
    exact List.drop_left (nonce ++ ct) tag
  simp only [htake12, hctpart, htagpart', hct, ccmXor_ccmXor]
  simp

theorem claim_C2_witness :
    ((List.replicate 12 0 : List ℕ).length = 12 ∧
      (∀ b ∈ (List.replicate 12 0 : List ℕ), b < 256) ∧
      (∀ b ∈ [7, 200], b < 256)) ∧
      decrypt toyCCM [5] (encrypt toyCCM [5] [7, 200] (List.replicate 12 0)) =
        .ok [7, 200] :=
  ⟨⟨by decide, by decide, by decide⟩,
    claim_C2_decrypt_encrypt toyCCM [5] [7, 200] (List.replicate 12 0)
      (by decide) (by decide) (by decide)⟩

/-- C9: `encrypt` returns a lowercase hex string of exactly
`24 + 2·n + 32` characters for an `n`-byte plaintext: the hex encoding of the
12-byte nonce, `n` ciphertext bytes and the 16-byte tag, two lowercase hex
characters per byte. -/
theorem claim_C9_encrypt_shape (C : CCMPrim) (key msg nonce : List ℕ)
    (hn : nonce.length = 12) (hn256 : ∀ b ∈ nonce, b < 256)
    (hm256 : ∀ b ∈ msg, b < 256) :
    (encrypt C key msg nonce).length = 24 + 2 * msg.length + 32 ∧
      ∀ c ∈ encrypt C key msg nonce, isLowerHexChar c = true := by
  set kh := C.sha256 key with hkh
  have henv256 : ∀ b ∈ nonce ++ ccmXor C kh nonce msg ++ C.tagF kh nonce msg,
      b < 256 := by
    intro b hb
    rcases List.mem_append.mp hb with hb | hb
    · rcases List.mem_append.mp hb with hb | hb
      · exact hn256 b hb
      · exact ccmXor_lt C kh nonce hm256 b hb
    · exact C.tagF_lt kh nonce msg b hb
  constructor
  · rw [encrypt, ← hkh, length_bytesToHex]
    simp [hn, length_ccmXor, C.tagF_len]
    omega
  · rw [encrypt, ← hkh]
    exact bytesToHex_lowerHex henv256

theorem claim_C9_witness :
    ((List.replicate 12 0 : List ℕ).length = 12 ∧
      (∀ b ∈ (List.replicate 12 0 : List ℕ), b < 256) ∧
      (∀ b ∈ [7, 200, 31], b < 256)) ∧
      (encrypt toyCCM [5] [7, 200, 31] (List.replicate 12 0)).length =
          24 + 2 * 3 + 32 ∧
        ∀ c ∈ encrypt toyCCM [5] [7, 200, 31] (List.replicate 12 0),
          isLowerHexChar c = true :=
  ⟨⟨by decide, by decide, by decide⟩,
    claim_C9_encrypt_shape toyCCM [5] [7, 200, 31] (List.replicate 12 0)
      (by decide) (by decide) (by decide)⟩

/-- C5: for every well-formed envelope of at least 28 bytes whose recomputed
CCM tag does not match the trailing 16 bytes under the given key (this covers
tampered envelopes and wrong keys alike), `decrypt` fails with the
authentication error and returns no plaintext bytes. -/
theorem claim_C5_auth_failure (C : CCMPrim) (key env : List ℕ)
    (h256 : ∀ b ∈ env, b < 256) (hlen : 28 ≤ env.length)
    (hmis : C.tagF (C.sha256 key) (env.take 12)
        (ccmXor C (C.sha256 key) (env.take 12)
          ((env.drop 12).take (env.length - 28))) ≠
        env.drop (env.length - 16)) :
    decrypt C key (bytesToHex env) =
      .error "Failed to decrypt message or tag verification failed" := by
  rw [decrypt, hexToBytes_bytesToHex h256, except_bind_ok]
  rw [if_neg (by omega)]
  exact if_neg hmis

theorem claim_C5_witness :
    ((∀ b ∈ List.replicate 27 0 ++ [1], b < 256) ∧
      28 ≤ (List.replicate 27 0 ++ [1] : List ℕ).length ∧
      toyCCM.tagF (toyCCM.sha256 [5]) ((List.replicate 27 0 ++ [1]).take 12)
          (ccmXor toyCCM (toyCCM.sha256 [5])
            ((List.replicate 27 0 ++ [1]).take 12)
            (((List.replicate 27 0 ++ [1]).drop 12).take
              ((List.replicate 27 0 ++ [1] : List ℕ).length - 28))) ≠
        (List.replicate 27 0 ++ [1]).drop
          ((List.replicate 27 0 ++ [1] : List ℕ).length - 16)) ∧
      decrypt toyCCM [5] (bytesToHex (List.replicate 27 0 ++ [1])) =
        .error "Failed to decrypt message or tag verification failed" :=
  ⟨⟨by decide, by decide, by decide⟩,
    claim_C5_auth_failure toyCCM [5] (List.replicate 27 0 ++ [1])
      (by decide) (by decide) (by decide)⟩

/-- C6: for every key and every hex envelope that decodes to fewer than 28
bytes, `decrypt` fails with the envelope-too-short error
(`"Invalid encrypted data length"`) and returns no plaintext; in the C++ code
this check precedes any key derivation or decryption work. -/
theorem claim_C6_envelope_too_short (C : CCMPrim) (key : List ℕ)
    (envHex : List Char) (bs : List ℕ)
    (hdec : hexToBytes envHex = .ok bs) (hshort : bs.length < 28) :
    decrypt C key envHex = .error "Invalid encrypted data length" := by
  rw [decrypt, hdec, except_bind_ok]
  exact if_pos hshort

theorem claim_C6_witness :
    (hexToBytes ['0', '0'] = .ok [0] ∧ ([0] : List ℕ).length < 28) ∧
      decrypt toyCCM [] ['0', '0'] = .error "Invalid encrypted data length" :=
  ⟨⟨by decide, by decide⟩,
    claim_C6_envelope_too_short toyCCM [] ['0', '0'] [0] (by decide) (by decide)⟩

lemma intCast_val_cast [NeZero n] (a : ZMod n) : (((a.val : ℤ)) : ZMod n) = a := by
  rw [Int.cast_natCast, ZMod.natCast_val, ZMod.cast_id]

lemma val_pos_int [NeZero n] {a : ZMod n} (ha : a ≠ 0) : (0 : ℤ) < (a.val : ℤ) := by
  have : a.val ≠ 0 := fun h => ha ((ZMod.val_eq_zero a).mp h)
  exact_mod_cast Nat.pos_of_ne_zero this

lemma val_lt_int [NeZero n] (a : ZMod n) : ((a.val : ℤ)) < (n : ℤ) := by
  exact_mod_cast ZMod.val_lt a

/-- C1: verifying a signature produced by `sign` succeeds:
`verify (sign m priv k) m (derivePublicKey priv) = true`, with the
per-signature ECDSA nonce `k` modeled as an input in `[1, order-1]`
(`k ≠ 0`); the hypotheses `r ≠ 0` and `z + r·d ≠ 0` express the (negligible
probability) retry cases in which `ECDSA_do_sign` would redraw `k` rather
than emit a signature component equal to zero. -/
theorem claim_C1_verify_sign [Fact (Nat.Prime n)] (P : ECPrim n)
    (privBytes msg : List ℕ) (hp256 : ∀ b ∈ privBytes, b < 256)
    (k : ZMod n) (hk : k ≠ 0) (hr : P.xcoordN k ≠ 0)
    (hzrd : P.msgHash msg + P.xcoordN k * scalarOfBytes n privBytes ≠ 0)
    (sigHex pubHex : List Char)
    (hsig : sign P msg (bytesToHex privBytes) k = .ok sigHex)
    (hpub : derivePublicKey P (bytesToHex privBytes) = .ok pubHex) :
    verify P sigHex msg pubHex = .ok true := by
  have hdec : hexToBytes (bytesToHex privBytes) = .ok privBytes :=
    hexToBytes_bytesToHex hp256
  simp only [sign, hdec, except_map_ok, Except.ok.injEq] at hsig
  simp only [derivePublicKey, hdec, except_map_ok, Except.ok.injEq] at hpub
  subst hsig
  subst hpub
  have hrv := P.derSer_deser (P.xcoordN k,
    k⁻¹ * (P.msgHash msg + P.xcoordN k * scalarOfBytes n privBytes))
  simp only [verify,
    hexToBytes_bytesToHex (P.pointSer_lt (scalarOfBytes n privBytes)),
    hexToBytes_bytesToHex (P.derSer_lt (P.xcoordN k,
      k⁻¹ * (P.msgHash msg + P.xcoordN k * scalarOfBytes n privBytes))),
    except_bind_ok, P.pointSer_deser, Option.getD_some, hrv]
  have hsne : k⁻¹ * (P.msgHash msg + P.xcoordN k * scalarOfBytes n privBytes) ≠ 0 :=
    mul_ne_zero (inv_ne_zero hk) hzrd
  rw [if_pos ⟨val_pos_int hr, val_lt_int _, val_pos_int hsne, val_lt_int _⟩]
  rw [intCast_val_cast, intCast_val_cast]
  have hcap : P.msgHash msg *
        (k⁻¹ * (P.msgHash msg + P.xcoordN k * scalarOfBytes n privBytes))⁻¹ +
      P.xcoordN k *
        (k⁻¹ * (P.msgHash msg + P.xcoordN k * scalarOfBytes n privBytes))⁻¹ *
        scalarOfBytes n privBytes = k := by
    set s := k⁻¹ * (P.msgHash msg + P.xcoordN k * scalarOfBytes n privBytes)
      with hsdef
    have hks : P.msgHash msg + P.xcoordN k * scalarOfBytes n privBytes = k * s := by
      rw [hsdef, ← mul_assoc, mul_inv_cancel₀ hk, one_mul]
    calc P.msgHash msg * s⁻¹ + P.xcoordN k * s⁻¹ * scalarOfBytes n privBytes
        = (P.msgHash msg + P.xcoordN k * scalarOfBytes n privBytes) * s⁻¹ := by
          ring
      _ = k * s * s⁻¹ := by rw [hks]
      _ = k := by rw [mul_assoc, mul_inv_cancel₀ hsne, mul_one]
  rw [hcap]
  simp [hk]

theorem claim_C1_witness :
    ((∀ b ∈ [1], b < 256) ∧ (1 : ZMod 3) ≠ 0 ∧ toyEC.xcoordN 1 ≠ 0 ∧
      toyEC.msgHash [] + toyEC.xcoordN 1 * scalarOfBytes 3 [1] ≠ 0) ∧
      verify toyEC ['0', '1', '0', '2'] [] ['0', '1'] = .ok true :=
  ⟨⟨by decide, by decide, by decide, by decide⟩,
    claim_C1_verify_sign toyEC [1] [] (by decide) 1 (by decide) (by decide)
      (by decide) ['0', '1', '0', '2'] ['0', '1']
      (by
        have hinv : (1 : ZMod 3)⁻¹ = 1 := inv_one
        simp only [sign, hinv]
        rw [show hexToBytes (bytesToHex [1]) = .ok [1] from by decide]
        simp only [except_map_ok]
        decide)
      (by decide)⟩

/-- C3: the shared-key computation is symmetric:
`getSharedKey (A.priv, B.pub) = getSharedKey (B.priv, A.pub)` for valid key
pairs whose public halves are produced by `derivePublicKey`. -/
theorem claim_C3_shared_key_symmetric [Fact (Nat.Prime n)] (P : ECPrim n)
    (pa pb : List ℕ) (ha256 : ∀ b ∈ pa, b < 256) (hb256 : ∀ b ∈ pb, b < 256)
    (ha : scalarOfBytes n pa ≠ 0) (hb : scalarOfBytes n pb ≠ 0)
    (pubA pubB : List Char)
    (hpubA : derivePublicKey P (bytesToHex pa) = .ok pubA)
    (hpubB : derivePublicKey P (bytesToHex pb) = .ok pubB) :
    getSharedKey P (bytesToHex pa) pubB = getSharedKey P (bytesToHex pb) pubA := by
  simp only [derivePublicKey, hexToBytes_bytesToHex ha256, except_map_ok,
    Except.ok.injEq] at hpubA
  simp only [derivePublicKey, hexToBytes_bytesToHex hb256, except_map_ok,
    Except.ok.injEq] at hpubB
  subst hpubA
  subst hpubB
  simp only [getSharedKey, hexToBytes_bytesToHex ha256,
    hexToBytes_bytesToHex hb256,
    hexToBytes_bytesToHex (P.pointSer_lt (scalarOfBytes n pa)),
    hexToBytes_bytesToHex (P.pointSer_lt (scalarOfBytes n pb)),
    except_bind_ok, P.pointSer_deser]
  rw [if_neg (mul_ne_zero ha hb), if_neg (mul_ne_zero hb ha), mul_comm]

theorem claim_C3_witness :
    ((∀ b ∈ [1], b < 256) ∧ (∀ b ∈ [2], b < 256) ∧
      scalarOfBytes 3 [1] ≠ 0 ∧ scalarOfBytes 3 [2] ≠ 0 ∧
      derivePublicKey toyEC (bytesToHex [1]) = .ok ['0', '1'] ∧
      derivePublicKey toyEC (bytesToHex [2]) = .ok ['0', '2']) ∧
      getSharedKey toyEC (bytesToHex [1]) ['0', '2'] =
        getSharedKey toyEC (bytesToHex [2]) ['0', '1'] :=
  ⟨⟨by decide, by decide, by decide, by decide, by decide, by decide⟩,
    claim_C3_shared_key_symmetric toyEC [1] [2] (by decide) (by decide)
      (by decide) (by decide) ['0', '1'] ['0', '2'] (by decide) (by decide)⟩

/-- C4 counterexample: `verify` does throw on a signature whose hex is not
decodable — `hexToBytes "zz"` propagates `std::invalid_argument("stoi")` out
of `verify` instead of returning `false`. -/
theorem claim_C4_counterexample :
    verify toyEC ['z', 'z'] [] ['0', '1'] = .error "stoi" := by decide

/-- C4 (amended): provided both hex inputs decode (otherwise the `stoi`
exception propagates out of `verify`), `verify` never throws: it returns some
boolean, and returns `false` whenever the DER parse of the signature fails.
(A public-key input rejected by `EC_POINT_oct2point` is not reported: the
ignored return value leaves the freshly created point, i.e. the point at
infinity, and verification proceeds with it.) -/
theorem claim_C4_amended [Fact (Nat.Prime n)] (P : ECPrim n)
    (sigHex pubHex : List Char) (msg : List ℕ) (sb pb : List ℕ)
    (hsb : hexToBytes sigHex = .ok sb) (hpb : hexToBytes pubHex = .ok pb) :
    (∃ b : Bool, verify P sigHex msg pubHex = .ok b) ∧
      (P.derDeser sb = none → verify P sigHex msg pubHex = .ok false) := by
  simp only [verify, hsb, hpb, except_bind_ok]
  rcases hd : P.derDeser sb with _ | ⟨rI, sI⟩
  · simp only [hd]
    exact ⟨⟨false, by trivial⟩, fun _ => by trivial⟩
  · simp only [hd]
    constructor
    · by_cases hc : 0 < rI ∧ rI < (n : ℤ) ∧ 0 < sI ∧ sI < (n : ℤ)
      · exact ⟨_, by rw [if_pos hc]⟩
      · exact ⟨false, by rw [if_neg hc]⟩
    · intro hnone
      exact (Option.some_ne_none _ hnone).elim

theorem claim_C4_witness :
    (hexToBytes ['0', '0'] = .ok [0] ∧ hexToBytes ['0', '1'] = .ok [1]) ∧
      ((∃ b : Bool, verify toyEC ['0', '0'] [] ['0', '1'] = .ok b) ∧
        (toyEC.derDeser [0] = none →
          verify toyEC ['0', '0'] [] ['0', '1'] = .ok false)) :=
  ⟨⟨by decide, by decide⟩,
    claim_C4_amended toyEC ['0', '0'] ['0', '1'] [] [0] [1]
      (by decide) (by decide)⟩

end CryptoModel
